import Mathlib

/-!
Verification of the perception-level audio-to-vibration translator
(`Audioalgo/Percept.py`): the forward perceptual mapping, the closed-form
inversion with fallback, the block pipeline's output placement, sizing,
normalization and clipping.  Floating-point arithmetic is modelled by exact
real arithmetic; index computations are carried out over ℚ/ℤ as in the
source (`round`, `ceil`).
-/

namespace Percept

/-! ## Constants (Percept.py, module level) -/

def AUDIO_SR : ℕ := 44100
def VIB_SR : ℕ := 8000
def FRAME_S : ℕ := 4096
noncomputable def F1 : ℝ := 175.0
noncomputable def F2 : ℝ := 210.0
noncomputable def CR : ℝ := 0.035
noncomputable def OR_ : ℝ := 0.40
noncomputable def CV : ℝ := 1
noncomputable def CL : ℝ := 0.1
noncomputable def OL : ℝ := 3.8
noncomputable def c : ℝ := 1.37
noncomputable def C_fullband : ℝ := 0.065
def F_fullband : ℚ := 6400
noncomputable def C_bass : ℝ := 1.91
def F_bass : ℚ := 200

/-! ## Forward mapping `perceptual_targets(La, Ra, content)` (eq. 7–9) -/

/-- `perceptual_targets(La, Ra, content)`: `Iv = CL*La - OL` for music,
`Iv = CR*sqrt(La)*Ra**2 - OR` otherwise, then `Rv = CV*Ra` and
`return max(0, Iv), Rv`. -/
noncomputable def perceptual_targets (La Ra : ℝ) (content : String) : ℝ × ℝ :=
  let Iv : ℝ := if content == "music" then CL * La - OL
                else CR * Real.sqrt La * Ra ^ 2 - OR_
  let Rv : ℝ := CV * Ra
  (max 0 Iv, Rv)

/-! ## Inverse mapping `amplitudes_from_percepts(Iv, Rv)` (eq. 5–6) -/

/-- `Rv_max = (801.0/113.0) + 0.529*Iv + 0.479`. -/
noncomputable def Rv_max (Iv : ℝ) : ℝ := 801.0 / 113.0 + 0.529 * Iv + 0.479

/-- `Rv_adj = min(Rv, Rv_max)`. -/
noncomputable def Rv_adj (Iv Rv : ℝ) : ℝ := min Rv (Rv_max Iv)

/-- `disc = max(0.0, 801.0 - 113.0*(Rv_adj - 0.529*Iv - 0.479))`. -/
noncomputable def disc (Iv Rv : ℝ) : ℝ :=
  max 0 (801.0 - 113.0 * (Rv_adj Iv Rv - 0.529 * Iv - 0.479))

/-- `r1 = (28.3 + math.sqrt(disc)) / 56.3`. -/
noncomputable def root1 (Iv Rv : ℝ) : ℝ := (28.3 + Real.sqrt (disc Iv Rv)) / 56.3

/-- `r2 = (28.3 - math.sqrt(disc)) / 56.3`. -/
noncomputable def root2 (Iv Rv : ℝ) : ℝ := (28.3 - Real.sqrt (disc Iv Rv)) / 56.3

/-- `valid = [s for s in (r1, r2) if 0.0 <= s <= 1.0]`;
`S = min(valid)` when `valid` is nonempty, else the fallback `28.3/56.3`. -/
noncomputable def chooseS (r1 r2 : ℝ) : ℝ :=
  if 0 ≤ r1 ∧ r1 ≤ 1 then
    (if 0 ≤ r2 ∧ r2 ≤ 1 then min r1 r2 else r1)
  else
    (if 0 ≤ r2 ∧ r2 ≤ 1 then r2 else 28.3 / 56.3)

/-- The tone-mix ratio `S` selected by `amplitudes_from_percepts`. -/
noncomputable def chosenS (Iv Rv : ℝ) : ℝ := chooseS (root1 Iv Rv) (root2 Iv Rv)

/-- `A = ((25.8*S**2 - 25.5*S + Rv_adj - 0.203) / 3.98)**2` (eq. 6). -/
noncomputable def ampA (Iv Rv : ℝ) : ℝ :=
  ((25.8 * chosenS Iv Rv ^ 2 - 25.5 * chosenS Iv Rv + Rv_adj Iv Rv - 0.203) / 3.98) ^ 2

/-- `amplitudes_from_percepts(Iv, Rv)`: early `(0, 0)` return for `Iv <= 0`,
otherwise `a2 = A*S`, `a1 = A - a2`, returning `(a1, a2)`. -/
noncomputable def amplitudes_from_percepts (Iv Rv : ℝ) : ℝ × ℝ :=
  if Iv ≤ 0 then (0, 0)
  else (ampA Iv Rv - ampA Iv Rv * chosenS Iv Rv, ampA Iv Rv * chosenS Iv Rv)

/-- The pair the code returns on the fallback branch: `S = 28.3/56.3` plugged
into eq. 6 with the clamped `Rv_adj`. -/
noncomputable def fallbackPair (Iv Rv : ℝ) : ℝ × ℝ :=
  let S : ℝ := 28.3 / 56.3
  let A : ℝ := ((25.8 * S ^ 2 - 25.5 * S + Rv_adj Iv Rv - 0.203) / 3.98) ^ 2
  (A - A * S, A * S)

/-- The unique `Rv` for which the code's discriminant
`801 - 113*(Rv - 0.529*Iv - 0.479)` equals `(56.3*S - 28.3)^2`, i.e. the
forward quadratic from a tone-mix ratio `S` to the roughness target. -/
noncomputable def forwardRv (Iv S : ℝ) : ℝ :=
  0.529 * Iv + 0.479 + (801 - (56.3 * S - 28.3) ^ 2) / 113

/-! ## Basic lemmas on the inverse mapping -/

lemma chooseS_nonneg_le_one (r1 r2 : ℝ) : 0 ≤ chooseS r1 r2 ∧ chooseS r1 r2 ≤ 1 := by
  unfold chooseS
  split_ifs with h1 h2 h2
  · exact ⟨le_min h1.1 h2.1, min_le_of_left_le h1.2⟩
  · exact h1
  · exact h2
  · norm_num

lemma Rv_adj_le (Iv Rv : ℝ) : Rv_adj Iv Rv ≤ Rv_max Iv := min_le_right _ _

lemma disc_inner_nonneg (Iv Rv : ℝ) :
    0 ≤ 801.0 - 113.0 * (Rv_adj Iv Rv - 0.529 * Iv - 0.479) := by
  have h := Rv_adj_le Iv Rv
  unfold Rv_max at h
  nlinarith [h]

lemma disc_eq_inner (Iv Rv : ℝ) :
    disc Iv Rv = 801.0 - 113.0 * (Rv_adj Iv Rv - 0.529 * Iv - 0.479) :=
  max_eq_right (disc_inner_nonneg Iv Rv)

/-- The `Iv <= 0.0` early return of `amplitudes_from_percepts`. -/
lemma amplitudes_of_nonpos {Iv : ℝ} (Rv : ℝ) (h : Iv ≤ 0) :
    amplitudes_from_percepts Iv Rv = (0, 0) := by
  unfold amplitudes_from_percepts
  rw [if_pos h]

/-- When neither root is admissible the selected ratio is the fallback constant. -/
lemma chosenS_fallback {Iv Rv : ℝ}
    (h1 : ¬ (0 ≤ root1 Iv Rv ∧ root1 Iv Rv ≤ 1))
    (h2 : ¬ (0 ≤ root2 Iv Rv ∧ root2 Iv Rv ≤ 1)) :
    chosenS Iv Rv = 28.3 / 56.3 := by
  unfold chosenS chooseS
  rw [if_neg h1, if_neg h2]

/-- C5.  The first component of `perceptual_targets` is clamped nonnegative. -/
theorem perceptual_targets_Iv_nonneg (La Ra : ℝ) (content : String)
    (hLa : 0 ≤ La) : 0 ≤ (perceptual_targets La Ra content).1 := by
  unfold perceptual_targets
  exact le_max_left _ _

/-- Witness for C5 at `La = 1`, `Ra = 2`, content `game`. -/
theorem perceptual_targets_Iv_nonneg_witness :
    (0 : ℝ) ≤ 1 ∧ 0 ≤ (perceptual_targets 1 2 "game").1 :=
  ⟨by norm_num, perceptual_targets_Iv_nonneg 1 2 "game" (by norm_num)⟩

/-- C6.  Both returned amplitudes are nonnegative on every branch. -/
theorem amplitudes_nonneg (Iv Rv : ℝ) :
    0 ≤ (amplitudes_from_percepts Iv Rv).1 ∧ 0 ≤ (amplitudes_from_percepts Iv Rv).2 := by
  unfold amplitudes_from_percepts
  split_ifs with h
  · norm_num
  · have hA : 0 ≤ ampA Iv Rv := sq_nonneg _
    have hS := chooseS_nonneg_le_one (root1 Iv Rv) (root2 Iv Rv)
    constructor
    · have : ampA Iv Rv * chosenS Iv Rv ≤ ampA Iv Rv * 1 :=
        mul_le_mul_of_nonneg_left hS.2 hA
      simp only [mul_one] at this
      simpa using sub_nonneg.mpr this
    · exact mul_nonneg hA hS.1

/-- C10.  After `Rv` is clamped to `Rv_max`, the raw discriminant is already
nonnegative, so the `max(0, ...)` guard never alters its value. -/
theorem disc_clamp_inactive (Iv Rv : ℝ) (hIv : 0 < Iv) :
    0 ≤ 801.0 - 113.0 * (Rv_adj Iv Rv - 0.529 * Iv - 0.479) ∧
    disc Iv Rv = 801.0 - 113.0 * (Rv_adj Iv Rv - 0.529 * Iv - 0.479) :=
  ⟨disc_inner_nonneg Iv Rv, disc_eq_inner Iv Rv⟩

/-- Witness for C10 at `Iv = 1`, `Rv = 0`. -/
theorem disc_clamp_inactive_witness :
    (0 : ℝ) < 1 ∧
    (0 ≤ 801.0 - 113.0 * (Rv_adj 1 0 - 0.529 * 1 - 0.479) ∧
     disc 1 0 = 801.0 - 113.0 * (Rv_adj 1 0 - 0.529 * 1 - 0.479)) :=
  ⟨by norm_num, disc_clamp_inactive 1 0 (by norm_num)⟩

/-- C3.  `amplitudes_from_percepts` returns `(0, 0)` for `Iv ≤ 0`; and when
`Iv > 0` but neither quadratic root lies in `[0, 1]`, it returns the pair
computed from the fixed fallback ratio `S = 28.3/56.3` (no exception path). -/
theorem amplitudes_cases (Iv Rv : ℝ) :
    (Iv ≤ 0 → amplitudes_from_percepts Iv Rv = (0, 0)) ∧
    (0 < Iv →
      ¬ (0 ≤ root1 Iv Rv ∧ root1 Iv Rv ≤ 1) →
      ¬ (0 ≤ root2 Iv Rv ∧ root2 Iv Rv ≤ 1) →
      amplitudes_from_percepts Iv Rv = fallbackPair Iv Rv) := by
  constructor
  · intro h
    exact amplitudes_of_nonpos Rv h
  · intro hIv h1 h2
    unfold amplitudes_from_percepts fallbackPair ampA
    rw [if_neg (by push_cast; linarith), chosenS_fallback h1 h2]

/-- Witness for C3: the `Iv ≤ 0` branch at `(-1, 5)` and the fallback branch
at `(1, 0)`, where the discriminant is `914.904` and both roots fall outside
`[0, 1]`. -/
theorem amplitudes_cases_witness :
    ((-1 : ℝ) ≤ 0 ∧ amplitudes_from_percepts (-1) 5 = (0, 0)) ∧
    ((0 : ℝ) < 1 ∧ amplitudes_from_percepts 1 0 = fallbackPair 1 0) := by
  have hdisc : disc 1 0 = 914.904 := by
    unfold disc Rv_adj Rv_max
    rw [min_eq_left (by norm_num)]
    norm_num
  have hs : (28.3 : ℝ) < Real.sqrt (disc 1 0) := by
    rw [hdisc]
    rw [show (914.904 : ℝ) = 914.904 from rfl]
    exact (Real.lt_sqrt (by norm_num)).mpr (by norm_num)
  refine ⟨⟨by norm_num, (amplitudes_cases (-1) 5).1 (by norm_num)⟩,
          ⟨by norm_num, (amplitudes_cases 1 0).2 (by norm_num) ?_ ?_⟩⟩
  · rintro ⟨-, hle⟩
    unfold root1 at hle
    rw [div_le_one (by norm_num)] at hle
    linarith
  · rintro ⟨hge, -⟩
    unfold root2 at hge
    rw [le_div_iff (by norm_num)] at hge
    linarith

/-! ## C1: inversion round trip through the forward quadratic -/

lemma Rv_adj_forward (Iv S : ℝ) : Rv_adj Iv (forwardRv Iv S) = forwardRv Iv S := by
  apply min_eq_left
  unfold forwardRv Rv_max
  nlinarith [sq_nonneg (56.3 * S - 28.3)]

lemma disc_forward (Iv S : ℝ) : disc Iv (forwardRv Iv S) = (56.3 * S - 28.3) ^ 2 := by
  unfold disc
  rw [Rv_adj_forward]
  unfold forwardRv
  rw [max_eq_right (by nlinarith [sq_nonneg (56.3 * S - 28.3)])]
  ring

lemma sqrt_disc_forward {Iv S : ℝ} (hS1 : S ≤ 28.3 / 56.3) :
    Real.sqrt (disc Iv (forwardRv Iv S)) = 28.3 - 56.3 * S := by
  rw [disc_forward, Real.sqrt_sq_eq_abs, abs_of_nonpos (by nlinarith)]
  ring

lemma root2_forward {Iv S : ℝ} (hS1 : S ≤ 28.3 / 56.3) :
    root2 Iv (forwardRv Iv S) = S := by
  unfold root2
  rw [sqrt_disc_forward hS1]
  field_simp

lemma root1_forward {Iv S : ℝ} (hS1 : S ≤ 28.3 / 56.3) :
    root1 Iv (forwardRv Iv S) = (56.6 - 56.3 * S) / 56.3 := by
  unfold root1
  rw [sqrt_disc_forward hS1]
  ring_nf

/-- On the smaller-root half of the achievable range the code recovers the
original ratio `S` exactly. -/
lemma chosenS_forward {Iv S : ℝ} (hS0 : 0 ≤ S) (hS1 : S ≤ 28.3 / 56.3) :
    chosenS Iv (forwardRv Iv S) = S := by
  have hr2 : root2 Iv (forwardRv Iv S) = S := root2_forward hS1
  have hr1 : root1 Iv (forwardRv Iv S) = (56.6 - 56.3 * S) / 56.3 :=
    root1_forward hS1
  have hSr1 : S ≤ root1 Iv (forwardRv Iv S) := by
    rw [hr1]; rw [le_div_iff (by norm_num)]; nlinarith
  unfold chosenS chooseS
  rw [hr2]
  by_cases hv :
      0 ≤ root1 Iv (forwardRv Iv S) ∧ root1 Iv (forwardRv Iv S) ≤ 1
  · rw [if_pos hv, if_pos ⟨hS0, by linarith [hS1]⟩, min_eq_right hSr1]
  · rw [if_neg hv, if_pos ⟨hS0, by linarith [hS1]⟩]

lemma amplitudes_forward_eval {Iv S : ℝ} (hIv : 0 < Iv) (hS0 : 0 ≤ S)
    (hS1 : S ≤ 28.3 / 56.3) :
    amplitudes_from_percepts Iv (forwardRv Iv S) =
      (ampA Iv (forwardRv Iv S) - ampA Iv (forwardRv Iv S) * S,
       ampA Iv (forwardRv Iv S) * S) := by
  unfold amplitudes_from_percepts
  rw [if_neg (by linarith), chosenS_forward hS0 hS1]

/-- C1 (amended).  For synthetic `(Iv, Rv)` pairs built from a tone-mix ratio
`S` in the smaller-root half `[0, 28.3/56.3]` of the range, with `Iv > 0` and
`a1 + a2 ≠ 0`, the reconstruction `a2 / (a1 + a2)` returns exactly `S`. -/
theorem inversion_round_trip (Iv S : ℝ) (hIv : 0 < Iv) (hS0 : 0 ≤ S)
    (hS1 : S ≤ 28.3 / 56.3)
    (hA : (amplitudes_from_percepts Iv (forwardRv Iv S)).1 +
          (amplitudes_from_percepts Iv (forwardRv Iv S)).2 ≠ 0) :
    (amplitudes_from_percepts Iv (forwardRv Iv S)).2 /
      ((amplitudes_from_percepts Iv (forwardRv Iv S)).1 +
       (amplitudes_from_percepts Iv (forwardRv Iv S)).2) = S := by
  have he := amplitudes_forward_eval hIv hS0 hS1
  rw [he] at hA ⊢
  simp only [sub_add_cancel] at hA ⊢
  rw [mul_comm, mul_div_assoc, div_self hA, mul_one]

/-- Witness for C1 (amended) at `Iv = 1`, `S = 1/4`. -/
theorem inversion_round_trip_witness :
    (0 : ℝ) < 1 ∧ (0 : ℝ) ≤ 1 / 4 ∧ (1 / 4 : ℝ) ≤ 28.3 / 56.3 ∧
    (amplitudes_from_percepts 1 (forwardRv 1 (1 / 4))).2 /
      ((amplitudes_from_percepts 1 (forwardRv 1 (1 / 4))).1 +
       (amplitudes_from_percepts 1 (forwardRv 1 (1 / 4))).2) = 1 / 4 := by
  have hA : (amplitudes_from_percepts 1 (forwardRv 1 (1 / 4))).1 +
            (amplitudes_from_percepts 1 (forwardRv 1 (1 / 4))).2 ≠ 0 := by
    rw [amplitudes_forward_eval (by norm_num) (by norm_num) (by norm_num)]
    simp only [sub_add_cancel]
    unfold ampA
    rw [chosenS_forward (by norm_num) (by norm_num), Rv_adj_forward]
    unfold forwardRv
    norm_num
  exact ⟨by norm_num, by norm_num, by norm_num,
         inversion_round_trip 1 (1 / 4) (by norm_num) (by norm_num) (by norm_num) hA⟩

/-- Counterexample to C1 as stated: at `S = 1`, `Iv = 1` the forward quadratic
is consistent (disc `= 784`, a perfect square, and `r1 = 1` recovers `S`),
`a1 + a2 ≠ 0`, yet the code selects the smaller in-range root `3/563`, so the
reconstructed ratio differs from the original `S = 1` by more than `1/2`. -/
theorem inversion_round_trip_cex :
    (0 : ℝ) ≤ 1 ∧ (1 : ℝ) ≤ 1 ∧ (0 : ℝ) < 1 ∧
    (amplitudes_from_percepts 1 (forwardRv 1 1)).1 +
      (amplitudes_from_percepts 1 (forwardRv 1 1)).2 ≠ 0 ∧
    |(amplitudes_from_percepts 1 (forwardRv 1 1)).2 /
      ((amplitudes_from_percepts 1 (forwardRv 1 1)).1 +
       (amplitudes_from_percepts 1 (forwardRv 1 1)).2) - 1| > 1 / 2 := by
  have hdisc : disc 1 (forwardRv 1 1) = 784 := by rw [disc_forward]; norm_num
  have hsqrt : Real.sqrt (disc 1 (forwardRv 1 1)) = 28 := by
    rw [hdisc, show (784 : ℝ) = 28 ^ 2 by norm_num, Real.sqrt_sq (by norm_num)]
  have hr1 : root1 1 (forwardRv 1 1) = 1 := by unfold root1; rw [hsqrt]; norm_num
  have hr2 : root2 1 (forwardRv 1 1) = 3 / 563 := by
    unfold root2; rw [hsqrt]; norm_num
  have hS : chosenS 1 (forwardRv 1 1) = 3 / 563 := by
    unfold chosenS chooseS
    rw [hr1, hr2, if_pos (by norm_num), if_pos (by norm_num),
        min_eq_right (by norm_num)]
  have hamp : amplitudes_from_percepts 1 (forwardRv 1 1) =
      (ampA 1 (forwardRv 1 1) - ampA 1 (forwardRv 1 1) * (3 / 563),
       ampA 1 (forwardRv 1 1) * (3 / 563)) := by
    unfold amplitudes_from_percepts
    rw [if_neg (by norm_num), hS]
  have hAval : ampA 1 (forwardRv 1 1) ≠ 0 := by
    unfold ampA
    rw [hS, Rv_adj_forward]
    unfold forwardRv
    norm_num
  refine ⟨by norm_num, le_refl 1, by norm_num, ?_, ?_⟩
  · rw [hamp]
    simpa using hAval
  · rw [hamp]
    simp only [sub_add_cancel]
    rw [mul_comm, mul_div_assoc, div_self hAval, mul_one]
    rw [abs_sub_comm, abs_of_nonneg (by norm_num : (0 : ℝ) ≤ 1 - 3 / 563)]
    norm_num

/-! ## C2: output placement of the block loop in `process_file` -/

/-- `n_out = int(round(FRAME_S * VIB_SR / AUDIO_SR))`: output-rate length of
every synthesized segment. -/
def n_out_seg : ℤ := round ((FRAME_S * VIB_SR : ℚ) / AUDIO_SR)

/-- `out_start = int(round(start * VIB_SR / AUDIO_SR))` for the `i`-th block,
whose `start` is `i * HOP_S` with `HOP_S = FRAME_S`. -/
def out_start (i : ℕ) : ℤ := round ((i * FRAME_S * VIB_SR : ℚ) / AUDIO_SR)

/-- `out_end = out_start + n_out`. -/
def out_end (i : ℕ) : ℤ := out_start i + n_out_seg

/-- Number of iterations of `for start in range(0, len(audio), HOP_S)` on an
input of `n` samples. -/
def numFrames (n : ℕ) : ℕ := (n + FRAME_S - 1) / FRAME_S

lemma n_out_seg_eq : n_out_seg = 743 := by
  unfold n_out_seg FRAME_S VIB_SR AUDIO_SR
  rw [round_eq]
  norm_num

lemma out_start_eq (i : ℕ) :
    out_start i = round ((i : ℚ) * (32768000 / 44100)) := by
  unfold out_start FRAME_S VIB_SR AUDIO_SR
  congr 1
  push_cast
  ring

lemma out_start_succ_ge (i : ℕ) : out_start i + 743 ≤ out_start (i + 1) := by
  have h1 := abs_sub_round ((i : ℚ) * (32768000 / 44100))
  have h2 := abs_sub_round (((i : ℕ) + 1 : ℚ) * (32768000 / 44100))
  rw [abs_le] at h1 h2
  have hq : (742 : ℚ) <
      (round (((i : ℕ) + 1 : ℚ) * (32768000 / 44100)) : ℚ) -
      (round ((i : ℚ) * (32768000 / 44100)) : ℚ) := by
    have hd : (((i : ℕ) + 1 : ℚ) * (32768000 / 44100)) -
        ((i : ℚ) * (32768000 / 44100)) = 32768000 / 44100 := by ring
    nlinarith [h1.1, h1.2, h2.1, h2.2]
  rw [out_start_eq i, out_start_eq (i + 1)]
  have : (742 : ℤ) < round (((i : ℕ) + 1 : ℚ) * (32768000 / 44100)) -
      round ((i : ℚ) * (32768000 / 44100)) := by exact_mod_cast hq
  push_cast
  omega

/-- C2 (amended).  The loop gives each frame exactly one nonempty placement
range `[out_start, out_end)`; the starts strictly increase and consecutive
ranges never overlap (`out_end i ≤ out_start (i+1)`), though they are not
always contiguous. -/
theorem placement_ranges (i : ℕ) :
    out_start i < out_end i ∧
    out_start i < out_start (i + 1) ∧
    out_end i ≤ out_start (i + 1) := by
  have hsucc := out_start_succ_ge i
  refine ⟨?_, ?_, ?_⟩
  · unfold out_end
    rw [n_out_seg_eq]
    omega
  · omega
  · unfold out_end
    rw [n_out_seg_eq]
    omega

/-- Counterexample to C2 as stated: on a 57344-sample input (14 frames) the
ranges of frames 12 and 13 both exist, but frame 12 ends at sample 9659 while
frame 13 starts at sample 9660 — a one-sample gap, so the ranges are not
contiguous. -/
theorem placement_contiguity_cex :
    12 < numFrames 57344 ∧ 13 < numFrames 57344 ∧
    out_end 12 = 9659 ∧ out_start 13 = 9660 ∧ out_end 12 ≠ out_start 13 := by
  have h12 : out_start 12 = 8916 := by
    unfold out_start FRAME_S VIB_SR AUDIO_SR
    rw [round_eq]
    norm_num
  have h13 : out_start 13 = 9660 := by
    unfold out_start FRAME_S VIB_SR AUDIO_SR
    rw [round_eq]
    norm_num
  have hn : numFrames 57344 = 14 := by
    unfold numFrames FRAME_S
    norm_num
  refine ⟨by omega, by omega, ?_, h13, ?_⟩
  · unfold out_end
    rw [h12, n_out_seg_eq]
    norm_num
  · unfold out_end
    rw [h12, h13, n_out_seg_eq]
    omega

/-! ## Spectral features: `auditory_loudness` and `auditory_roughness` -/

/-- Magnitude of the `k`-th bin of `np.fft.rfft(frame)`. -/
noncomputable def rfftMag (n : ℕ) (x : Fin n → ℝ) (k : ℕ) : ℝ :=
  Complex.abs (∑ j : Fin n,
    (x j : ℂ) * Complex.exp (-(2 * Real.pi * Complex.I * j * k) / n))

/-- `np.fft.rfftfreq(n, 1/AUDIO_SR)[k] = k * AUDIO_SR / n` (exact rational). -/
def freqsQ (n k : ℕ) : ℚ := (k * AUDIO_SR : ℚ) / n

/-- The ISO-226:2003 60-phon table `zip(_ISO_FREQ, _ISO_SPL60)`. -/
noncomputable def isoTable : List (ℝ × ℝ) :=
  [(25, 104.23), (31.5, 99.08), (40, 94.18), (50, 89.96), (63, 85.94),
   (80, 82.05), (100, 78.65), (125, 75.56), (160, 72.47), (200, 69.86),
   (250, 67.53), (315, 65.39), (400, 63.45), (500, 62.05), (630, 60.81),
   (800, 59.89), (1000, 60.01), (1250, 62.15), (1600, 63.19), (2000, 59.96),
   (2500, 57.26), (3150, 56.42), (4000, 57.57), (5000, 60.89), (6300, 66.36)]

/-- `np.interp` with edge clamping (`left`/`right` set to the end values). -/
noncomputable def npInterp (f : ℝ) : List (ℝ × ℝ) → ℝ
  | [] => 0
  | [p] => p.2
  | p :: q :: rest =>
      if f ≤ p.1 then p.2
      else if f ≤ q.1 then p.2 + (f - p.1) * (q.2 - p.2) / (q.1 - p.1)
      else npInterp f (q :: rest)

/-- `iso60phon(f)`: 60-phon SPL via linear interpolation of the table. -/
noncomputable def iso60phon (f : ℝ) : ℝ := npInterp f isoTable

/-- Bins retained by the mask `(freqs >= 25) & (freqs <= f_max)`. -/
def maskBins (n : ℕ) (fmax : ℚ) : List ℕ :=
  (List.range (n / 2 + 1)).filter (fun k => 25 ≤ freqsQ n k ∧ freqsQ n k ≤ fmax)

/-- `auditory_loudness(frame, content)` (eq. 1): band-restricted dB spectrum
weighted by the equal-loudness contour, summed, scaled and clamped at 0. -/
noncomputable def auditory_loudness (n : ℕ) (frame : Fin n → ℝ)
    (content : String) : ℝ :=
  max 0 ((if content == "music" then C_bass else C_fullband) *
    ((maskBins n (if content == "music" then F_bass else F_fullband)).map
      (fun k => 20 * Real.logb 10 (c * rfftMag n frame k + 1e-12) /
        iso60phon ((freqsQ n k : ℝ)))).sum)

/-- dB spectrum over the roughness band `[25, 6400]` (no `c` factor here). -/
noncomputable def dbArr (n : ℕ) (frame : Fin n → ℝ) : List ℝ :=
  (maskBins n 6400).map (fun k => 20 * Real.logb 10 (rfftMag n frame k + 1e-12))

/-- `thresh = db.max() + peak_db` with the default `peak_db = -40.0`. -/
noncomputable def dbThresh (n : ℕ) (frame : Fin n → ℝ) : ℝ :=
  (dbArr n frame).foldl max ((dbArr n frame).headD 0) + (-40.0)

/-- `scipy.signal.find_peaks` local-maximum condition: a maximal plateau
`[l, r]` strictly above both neighbours (the sample before `l` and after `r`),
with `l ≥ 1` and `r + 1 ≤ length - 1`. -/
def isPlateauPeak (v : List ℝ) (l r : ℕ) : Prop :=
  1 ≤ l ∧ l ≤ r ∧ r + 2 ≤ v.length ∧
  v.getD (l - 1) 0 < v.getD l 0 ∧
  (∀ j, l ≤ j → j ≤ r → v.getD j 0 = v.getD l 0) ∧
  v.getD (r + 1) 0 < v.getD l 0

open scoped Classical in
/-- Positions returned by `find_peaks(db, height=thresh)`: plateau midpoints
whose height reaches the threshold. -/
noncomputable def peakSet (v : List ℝ) (thresh : ℝ) : Finset ℕ :=
  (Finset.range v.length).filter
    (fun p => (∃ l r, isPlateauPeak v l r ∧ p = (l + r) / 2) ∧
              thresh ≤ v.getD p 0)

/-- The peak positions `auditory_roughness` detects on a frame. -/
noncomputable def detectedPeaks (n : ℕ) (frame : Fin n → ℝ) : Finset ℕ :=
  peakSet (dbArr n frame) (dbThresh n frame)

/-- One pairwise dissonance contribution of the roughness double loop. -/
noncomputable def roughTerm (f1 f2 x1 x2 : ℝ) : ℝ :=
  let xm : ℝ := min x1 x2
  let xM : ℝ := max x1 x2
  let fd : ℝ := |f2 - f1|
  let s : ℝ := 0.24 / (0.0207 * min f1 f2 + 18.96)
  (xm * xM) ^ (0.1 : ℝ) / 2 * (2 * xm / (xm + xM)) ^ (3.11 : ℝ) *
    (Real.exp (-3.5 * s * fd) - Real.exp (-5.75 * s * fd))

/-- `auditory_roughness(frame)` (eq. 2): sum of `roughTerm` over all unordered
pairs of detected spectral peaks. -/
noncomputable def auditory_roughness (n : ℕ) (frame : Fin n → ℝ) : ℝ :=
  let P := detectedPeaks n frame
  let fAt : ℕ → ℝ := fun p => ((freqsQ n ((maskBins n 6400).getD p 0) : ℚ) : ℝ)
  let xAt : ℕ → ℝ := fun p => rfftMag n frame ((maskBins n 6400).getD p 0)
  ∑ p ∈ P, ∑ q ∈ P.filter (fun q => p < q),
    roughTerm (fAt p) (fAt q) (xAt p) (xAt q)

/-! ## C7: behaviour on silent (all-zero) frames -/

lemma rfftMag_zero (n k : ℕ) : rfftMag n (fun _ => 0) k = 0 := by
  simp [rfftMag]

lemma list_sum_nonpos {l : List ℝ} (h : ∀ x ∈ l, x ≤ 0) : l.sum ≤ 0 := by
  induction l with
  | nil => simp
  | cons a t ih =>
    simp only [List.sum_cons]
    have ha := h a (List.mem_cons_self a t)
    have ht := ih (fun x hx => h x (List.mem_cons_of_mem a hx))
    linarith

lemma npInterp_pos (f : ℝ) :
    ∀ l : List (ℝ × ℝ), l ≠ [] →
      List.Chain' (fun p q : ℝ × ℝ => p.1 < q.1) l →
      (∀ p ∈ l, 0 < p.2) → 0 < npInterp f l := by
  intro l
  induction l with
  | nil => intro h; exact absurd rfl h
  | cons p t ih =>
    cases t with
    | nil =>
      intro _ _ hpos
      show 0 < p.2
      exact hpos p (List.mem_cons_self p [])
    | cons q rest =>
      intro _ hchain hpos
      have hpq : p.1 < q.1 := (List.chain'_cons.mp hchain).1
      have hp2 : 0 < p.2 := hpos p (by simp)
      have hq2 : 0 < q.2 := hpos q (by simp)
      simp only [npInterp]
      split_ifs with h1 h2
      · exact hp2
      · have hfp : p.1 < f := lt_of_not_le h1
        have hne : q.1 - p.1 ≠ 0 := ne_of_gt (by linarith)
        have key : p.2 + (f - p.1) * (q.2 - p.2) / (q.1 - p.1) =
            (p.2 * (q.1 - f) + q.2 * (f - p.1)) / (q.1 - p.1) := by
          field_simp
          ring
        rw [key]
        apply div_pos
        · nlinarith
        · linarith
      · exact ih (by simp) (List.chain'_cons.mp hchain).2
          (fun r hr => hpos r (List.mem_cons_of_mem p hr))

lemma iso60phon_pos (f : ℝ) : 0 < iso60phon f := by
  apply npInterp_pos f isoTable (by simp [isoTable])
  · simp only [isoTable, List.chain'_cons, List.chain'_singleton, and_true]
    norm_num
  · intro p hp
    fin_cases hp <;> norm_num

/-- On an all-zero frame the loudness estimator returns 0 after its clamp. -/
lemma auditory_loudness_zero (n : ℕ) (content : String) :
    auditory_loudness n (fun _ => 0) content = 0 := by
  unfold auditory_loudness
  apply max_eq_left
  have hsum : ((maskBins n (if content == "music" then F_bass else F_fullband)).map
      (fun k => 20 * Real.logb 10 (c * rfftMag n (fun _ => 0) k + 1e-12) /
        iso60phon ((freqsQ n k : ℝ)))).sum ≤ 0 := by
    apply list_sum_nonpos
    intro x hx
    obtain ⟨k, -, rfl⟩ := List.mem_map.mp hx
    apply div_nonpos_of_nonpos_of_nonneg
    · have : Real.logb 10 (c * rfftMag n (fun _ => 0) k + 1e-12) ≤ 0 := by
        rw [rfftMag_zero]
        apply Real.logb_nonpos (by norm_num)
        · unfold c; norm_num
        · unfold c; norm_num
      linarith
    · exact le_of_lt (iso60phon_pos _)
  have hC : (0 : ℝ) ≤ if content == "music" then C_bass else C_fullband := by
    split_ifs <;> norm_num [C_bass, C_fullband]
  have := mul_le_mul_of_nonneg_left hsum hC
  simpa using this

/-- A constant dB array has no plateau peaks. -/
lemma peakSet_const {v : List ℝ} {a t : ℝ} (h : ∀ x ∈ v, x = a) :
    peakSet v t = ∅ := by
  classical
  apply Finset.eq_empty_of_forall_not_mem
  intro p hp
  rw [peakSet, Finset.mem_filter] at hp
  obtain ⟨-, ⟨l, r, hpk, -⟩, -⟩ := hp
  unfold isPlateauPeak at hpk
  obtain ⟨hl1, hlr, hlen, hlt, -, -⟩ := hpk
  have hlm : l < v.length := by omega
  have hl1m : l - 1 < v.length := by omega
  have e1 : v.getD (l - 1) 0 = a := by
    rw [List.getD_eq_getElem v 0 hl1m]
    exact h _ (List.getElem_mem hl1m)
  have e2 : v.getD l 0 = a := by
    rw [List.getD_eq_getElem v 0 hlm]
    exact h _ (List.getElem_mem hlm)
  rw [e1, e2] at hlt
  exact lt_irrefl a hlt

lemma dbArr_zero_const (n : ℕ) :
    ∀ x ∈ dbArr n (fun _ => 0), x = 20 * Real.logb 10 (1e-12) := by
  intro x hx
  obtain ⟨k, -, rfl⟩ := List.mem_map.mp hx
  rw [rfftMag_zero]
  norm_num

/-- On an all-zero frame no spectral peaks are detected. -/
lemma detectedPeaks_zero (n : ℕ) : detectedPeaks n (fun _ => 0) = ∅ :=
  peakSet_const (dbArr_zero_const n)

/-- A frame with fewer than two detected peaks has roughness 0. -/
lemma auditory_roughness_few_peaks (n : ℕ) (frame : Fin n → ℝ)
    (h : (detectedPeaks n frame).card < 2) :
    auditory_roughness n frame = 0 := by
  unfold auditory_roughness
  apply Finset.sum_eq_zero
  intro p hp
  apply Finset.sum_eq_zero
  intro q hq
  exfalso
  obtain ⟨hqP, hpq⟩ := Finset.mem_filter.mp hq
  have : 1 < (detectedPeaks n frame).card :=
    Finset.one_lt_card.mpr ⟨p, hp, q, hqP, Nat.ne_of_lt hpq⟩
  omega

/-- On an all-zero frame the roughness estimator returns 0. -/
lemma auditory_roughness_zero (n : ℕ) :
    auditory_roughness n (fun _ => 0) = 0 := by
  apply auditory_roughness_few_peaks
  rw [detectedPeaks_zero]
  simp

lemma perceptual_targets_zero (content : String) :
    perceptual_targets 0 0 content = (0, 0) := by
  unfold perceptual_targets CL OL CR OR_ CV
  split_ifs with h <;>
    simp [Real.sqrt_zero] <;> norm_num

/-- C7.  Silent frames: loudness 0 after the clamp, roughness 0 (no detected
peaks; more generally fewer than two peaks give roughness 0), and the derived
amplitude pair is `(0, 0)`. -/
theorem silent_frame_behavior (n : ℕ) (content : String) :
    auditory_loudness n (fun _ => 0) content = 0 ∧
    auditory_roughness n (fun _ => 0) = 0 ∧
    (∀ (m : ℕ) (frame : Fin m → ℝ), (detectedPeaks m frame).card < 2 →
      auditory_roughness m frame = 0) ∧
    amplitudes_from_percepts
      (perceptual_targets (auditory_loudness n (fun _ => 0) content)
        (auditory_roughness n (fun _ => 0)) content).1
      (perceptual_targets (auditory_loudness n (fun _ => 0) content)
        (auditory_roughness n (fun _ => 0)) content).2 = (0, 0) := by
  refine ⟨auditory_loudness_zero n content, auditory_roughness_zero n,
          auditory_roughness_few_peaks, ?_⟩
  rw [auditory_loudness_zero, auditory_roughness_zero, perceptual_targets_zero]
  exact amplitudes_of_nonpos 0 le_rfl

/-- Witness for C7 at frame size 4096 and content `game`, instantiating the
fewer-than-two-peaks clause on the all-zero frame. -/
theorem silent_frame_behavior_witness :
    auditory_loudness 4096 (fun _ => 0) "game" = 0 ∧
    ((detectedPeaks 4096 (fun _ : Fin 4096 => (0 : ℝ))).card < 2 ∧
      auditory_roughness 4096 (fun _ => 0) = 0) := by
  have h := silent_frame_behavior 4096 "game"
  have hcard : (detectedPeaks 4096 (fun _ : Fin 4096 => (0 : ℝ))).card < 2 := by
    rw [detectedPeaks_zero]
    simp
  exact ⟨h.1, hcard, h.2.2.1 4096 (fun _ => 0) hcard⟩

/-! ## The block pipeline `process_file` -/

/-- One analysis block `audio[start:start+FRAME_S]`, zero-padded to
`FRAME_S` samples (`start = i * HOP_S`, `HOP_S = FRAME_S`). -/
noncomputable def block (audio : List ℝ) (i : ℕ) : Fin FRAME_S → ℝ :=
  fun j => audio.getD (FRAME_S * i + j) 0

/-- `n_out_total = int(np.ceil(len(audio) * VIB_SR / AUDIO_SR))`. -/
def n_out_total (n : ℕ) : ℕ := (⌈(n : ℚ) * VIB_SR / AUDIO_SR⌉).toNat

/-- The amplitude pair the loop derives for block `i`:
loudness → roughness → targets → inversion. -/
noncomputable def frameAmps (audio : List ℝ) (content : String) (i : ℕ) : ℝ × ℝ :=
  amplitudes_from_percepts
    (perceptual_targets (auditory_loudness FRAME_S (block audio i) content)
      (auditory_roughness FRAME_S (block audio i)) content).1
    (perceptual_targets (auditory_loudness FRAME_S (block audio i) content)
      (auditory_roughness FRAME_S (block audio i)) content).2

/-- `synth_vibration(a1, a2, n_samples)`: `a1*sin(2π*F1*t) + a2*sin(2π*F2*t)`
with `t = k / VIB_SR`. -/
noncomputable def synth_vibration (a1 a2 : ℝ) (m : ℕ) : List ℝ :=
  (List.range m).map (fun k : ℕ =>
    a1 * Real.sin (2 * Real.pi * F1 * ((k : ℝ) / (VIB_SR : ℝ))) +
    a2 * Real.sin (2 * Real.pi * F2 * ((k : ℝ) / (VIB_SR : ℝ))))

/-- `vib_full[out_start:out_end] += vib_seg`, with the segment truncated when
it would overrun the end of the buffer. -/
def addAt (buf : List ℝ) (off : ℕ) (seg : List ℝ) : List ℝ :=
  buf.mapIdx (fun idx v => if off ≤ idx then v + seg.getD (idx - off) 0 else v)

/-- The output buffer after the block loop of `process_file`. -/
noncomputable def vibBuffer (audio : List ℝ) (content : String) : List ℝ :=
  (List.range (numFrames audio.length)).foldl
    (fun buf i => addAt buf (out_start i).toNat
      (synth_vibration (frameAmps audio content i).1
        (frameAmps audio content i).2 n_out_seg.toNat))
    (List.replicate (n_out_total audio.length) 0)

/-- `current_rms = np.sqrt(np.mean(vib_full**2))`. -/
noncomputable def rmsOf (l : List ℝ) : ℝ :=
  Real.sqrt ((l.map (fun v => v ^ 2)).sum / l.length)

/-- The final waveform of `process_file`: the block loop's buffer, one guarded
RMS normalization (`if current_rms > 1e-6`), then clipping to `[-1, 1]`. -/
noncomputable def processWave (audio : List ℝ) (content : String) : List ℝ :=
  (if 1e-6 < rmsOf (vibBuffer audio content) then
      (vibBuffer audio content).map
        (fun v => v * (0.15 / rmsOf (vibBuffer audio content)))
    else vibBuffer audio content).map
    (fun v => max (-1) (min 1 v))

/-! ## C4: output length -/

lemma addAt_length (buf : List ℝ) (off : ℕ) (seg : List ℝ) :
    (addAt buf off seg).length = buf.length := by
  simp [addAt]

lemma foldl_addAt_length (g : ℕ → ℕ) (h : ℕ → List ℝ) :
    ∀ (L : List ℕ) (buf : List ℝ),
      (L.foldl (fun b i => addAt b (g i) (h i)) buf).length = buf.length := by
  intro L
  induction L with
  | nil => intro buf; rfl
  | cons a t ih =>
    intro buf
    rw [List.foldl_cons, ih, addAt_length]

lemma vibBuffer_length (audio : List ℝ) (content : String) :
    (vibBuffer audio content).length = n_out_total audio.length := by
  unfold vibBuffer
  rw [foldl_addAt_length]
  exact List.length_replicate _ _

/-- C4.  The output waveform has exactly `⌈n * 8000 / 44100⌉` samples for an
`n`-sample input. -/
theorem output_length (audio : List ℝ) (content : String)
    (h : 1 ≤ audio.length) :
    (processWave audio content).length =
      (⌈(audio.length : ℚ) * 8000 / 44100⌉).toNat := by
  unfold processWave
  split_ifs <;>
    simp [List.length_map, vibBuffer_length, n_out_total, VIB_SR, AUDIO_SR]

/-- Witness for C4 on the one-sample input `[0]`. -/
theorem output_length_witness :
    1 ≤ ([(0 : ℝ)]).length ∧
    (processWave [(0 : ℝ)] "game").length =
      (⌈(([(0 : ℝ)]).length : ℚ) * 8000 / 44100⌉).toNat :=
  ⟨by norm_num, output_length [(0 : ℝ)] "game" (by norm_num)⟩

/-! ## C8: all-zero input -/

lemma getD_replicate_zero (m i : ℕ) : (List.replicate m (0 : ℝ)).getD i 0 = 0 := by
  rcases lt_or_ge i m with h | h
  · rw [List.getD_eq_getElem _ _ (by simpa using h)]
    simp
  · rw [List.getD_eq_default _ _ (by simpa using h)]

lemma block_replicate_zero (n i : ℕ) :
    block (List.replicate n (0 : ℝ)) i = fun _ => 0 := by
  funext j
  exact getD_replicate_zero n _

lemma frameAmps_zero (n i : ℕ) (content : String) :
    frameAmps (List.replicate n (0 : ℝ)) content i = (0, 0) := by
  unfold frameAmps
  rw [block_replicate_zero, auditory_loudness_zero, auditory_roughness_zero,
    perceptual_targets_zero]
  exact amplitudes_of_nonpos 0 le_rfl

lemma synth_vibration_zero (m : ℕ) :
    synth_vibration 0 0 m = List.replicate m 0 := by
  unfold synth_vibration
  rw [show (fun k : ℕ =>
      (0 : ℝ) * Real.sin (2 * Real.pi * F1 * ((k : ℝ) / (VIB_SR : ℝ))) +
      0 * Real.sin (2 * Real.pi * F2 * ((k : ℝ) / (VIB_SR : ℝ)))) =
      fun _ : ℕ => (0 : ℝ) from by funext k; simp]
  rw [List.map_const', List.length_range]

lemma mapIdx_id_fun (l : List ℝ) : l.mapIdx (fun _ v => v) = l := by
  induction l with
  | nil => rfl
  | cons a t ih => simp [List.mapIdx_cons, ih]

lemma addAt_zero_seg (buf : List ℝ) (off m : ℕ) :
    addAt buf off (List.replicate m 0) = buf := by
  unfold addAt
  have : (fun idx (v : ℝ) =>
      if off ≤ idx then v + (List.replicate m (0 : ℝ)).getD (idx - off) 0 else v) =
      fun _ v => v := by
    funext idx v
    rw [getD_replicate_zero]
    split_ifs <;> simp
  rw [this, mapIdx_id_fun]

lemma vibBuffer_zero (n : ℕ) (content : String) :
    vibBuffer (List.replicate n (0 : ℝ)) content =
      List.replicate (n_out_total n) 0 := by
  unfold vibBuffer
  rw [List.length_replicate]
  have hstep : ∀ (buf : List ℝ) (i : ℕ),
      addAt buf (out_start i).toNat
        (synth_vibration (frameAmps (List.replicate n (0 : ℝ)) content i).1
          (frameAmps (List.replicate n (0 : ℝ)) content i).2 n_out_seg.toNat) =
      buf := by
    intro buf i
    rw [frameAmps_zero]
    rw [show ((0 : ℝ), (0 : ℝ)).1 = 0 from rfl, show ((0 : ℝ), (0 : ℝ)).2 = 0 from rfl]
    rw [synth_vibration_zero, addAt_zero_seg]
  exact List.foldl_fixed' (fun i => hstep _ i) _

lemma rmsOf_replicate_zero (m : ℕ) : rmsOf (List.replicate m (0 : ℝ)) = 0 := by
  unfold rmsOf
  simp

lemma processWave_zero (n : ℕ) (content : String) :
    processWave (List.replicate n (0 : ℝ)) content =
      List.replicate (n_out_total n) 0 := by
  unfold processWave
  rw [vibBuffer_zero, rmsOf_replicate_zero,
    if_neg (by norm_num : ¬ ((1e-6 : ℝ) < 0))]
  rw [List.map_replicate]
  norm_num

/-- C8.  An all-zero input produces an all-zero output: the buffer RMS is `0`,
below the `1e-6` guard, so the normalization skips scaling (no division by
zero) and clipping keeps every sample at `0`. -/
theorem zero_input_zero_output (n : ℕ) (content : String) :
    rmsOf (vibBuffer (List.replicate n (0 : ℝ)) content) = 0 ∧
    processWave (List.replicate n (0 : ℝ)) content =
      List.replicate (n_out_total n) 0 := by
  constructor
  · rw [vibBuffer_zero, rmsOf_replicate_zero]
  · exact processWave_zero n content

/-! ## C9: output range -/

/-- C9.  Every sample of the final output lies in `[-1, 1]`. -/
theorem output_in_range (audio : List ℝ) (content : String) (v : ℝ)
    (hv : v ∈ processWave audio content) : -1 ≤ v ∧ v ≤ 1 := by
  unfold processWave at hv
  rw [List.mem_map] at hv
  obtain ⟨w, -, rfl⟩ := hv
  refine ⟨le_max_left _ _, max_le (by norm_num) (min_le_left _ _)⟩

/-- Witness for C9: the sample `0` of the output for the input `[0]`. -/
theorem output_in_range_witness :
    (0 : ℝ) ∈ processWave [(0 : ℝ)] "game" ∧
    (-1 ≤ (0 : ℝ) ∧ (0 : ℝ) ≤ 1) := by
  have h2 : n_out_total 1 = 1 := by
    unfold n_out_total VIB_SR AUDIO_SR
    rw [show ((1 : ℕ) : ℚ) * ((8000 : ℕ) : ℚ) / ((44100 : ℕ) : ℚ) = 80 / 441
      from by norm_num]
    rw [show ⌈(80 / 441 : ℚ)⌉ = 1 from by rw [Int.ceil_eq_iff] <;> norm_num]
    rfl
  have h1 : processWave [(0 : ℝ)] "game" = [0] := by
    have h := processWave_zero 1 "game"
    rw [List.replicate_one] at h
    rw [h, h2, List.replicate_one]
  have hm : (0 : ℝ) ∈ processWave [(0 : ℝ)] "game" := by
    rw [h1]; exact List.mem_singleton.mpr rfl
  exact ⟨hm, output_in_range [(0 : ℝ)] "game" 0 hm⟩

end Percept
